import Mathlib

/-!
# A shallow embedding of `distinct-kmers`

This file embeds the minimizer-based distinct k-mer counter of
`src/src/main.rs` into Lean.  Pure functions mirror the Rust source
directly; the two external crates doing core work
(`simd_minimizers::minimizer_and_superkmer_positions` and the
`packed_seq` packing/slicing primitives) are not part of the repository,
so they are modelled from the specification where marked.
-/

namespace DistinctKmers

/-- `SKLEN_BITS` from main.rs: the width of the base-count field of an
encoded superkmer word. -/
def SKLEN_BITS : Nat := 6

/-- `SHARD_BASES` from main.rs: the number of minimizer bases whose packed
value is the shard index. -/
def SHARD_BASES : Nat := 8

/-- A 2-bit packed base. -/
abbrev Base := Fin 4

/-- `packed_seq` ASCII packing: the code of byte `b` is `(b >>> 1) % 4`
(A→0, C→1, T→2, G→3, case-insensitive). -/
def packBase (b : Nat) : Base := ⟨(b >>> 1) % 4, Nat.mod_lt _ (by norm_num)⟩

/-- Little-endian 2-bit packed value of a base sequence (first base in the
lowest-order position), the value computed by `packed_seq`'s `to_word`. -/
def seqVal : List Base → Nat
  | [] => 0
  | b :: rest => b.val + 4 * seqVal rest

/-- `packed_seq.slice(a..a+len).to_word()`.  Modelled from the spec for the
external `packed_seq` crate: in-range bases yield the exact packed value;
positions past the end of the segment read as code 0 (the crate's backing
buffers are padded for SIMD-width access). -/
def sliceWord (seg : List Base) (a len : Nat) : Nat :=
  seqVal ((seg.drop a).take len)

/-- The bytes matched by the ambiguous-base regex `[N]+` built with
`case_insensitive(true)` (main.rs lines 130-134). -/
def isN (b : Nat) : Bool := b == 78 || b == 110

/-- The bytes matched by the line-break regex `[\r\n]+`
(main.rs lines 135-138). -/
def isBreak (b : Nat) : Bool := b == 13 || b == 10

/-- Split of a record at every byte satisfying `p`.  This models
`Regex::split` on `[N]+` up to empty pieces: the regex merges a run of
delimiter bytes into one separator while this split keeps an empty piece
between adjacent delimiters, and both produce empty pieces at the borders;
the `k ≤ length` filter applied immediately afterwards (main.rs line 67)
discards every empty piece whenever `1 ≤ k`, so the composed results
agree. -/
def splitSeq (p : Nat → Bool) : List Nat → List (List Nat)
  | [] => [[]]
  | b :: rest =>
    match splitSeq p rest with
    | [] => [[]]
    | cur :: done => if p b then [] :: cur :: done else (b :: cur) :: done

/-- The pieces of a record lying between ambiguous-base runs that pass the
`s.len() >= self.k` filter (main.rs lines 64-68). -/
def rawPieces (k : Nat) (record : List Nat) : List (List Nat) :=
  (splitSeq isN record).filter (fun s => k ≤ s.length)

/-- Removal of line-break bytes: main.rs lines 70-74 split each piece on
`[\r\n]+` and append each nonempty line to the packed sequence, which
packs exactly the piece with its break bytes removed. -/
def stripBreaks (piece : List Nat) : List Nat :=
  piece.filter (fun b => !(isBreak b))

/-- The Cleaned Segments of one record: N-free pieces of raw length ≥ k,
line breaks removed, packed 2 bits/base, kept only when the packed length
is still ≥ k (main.rs line 76). -/
def cleanedSegments (k : Nat) (record : List Nat) : List (List Base) :=
  ((rawPieces k record).map (fun s => (stripBreaks s).map packBase)).filter
    (fun s => k ≤ s.length)

/-- Big-endian 2-bit value of a base list; on lists of one common length
this order coincides with lexicographic order of the 2-bit codes. -/
def bigVal (l : List Base) : Nat := l.foldl (fun a b => 4 * a + b.val) 0

/-- The rank used to compare the m-mer of the segment starting at `j`. -/
def mmerRank (seg : List Base) (m j : Nat) : Nat :=
  bigVal ((seg.drop j).take m)

/-- Left-to-right scan keeping the position of the strictly smallest rank
seen so far (so ties keep the leftmost position). -/
def minScan (seg : List Base) (m : Nat) (best : Nat) : List Nat → Nat
  | [] => best
  | j :: rest =>
    minScan seg m (if mmerRank seg m j < mmerRank seg m best then j else best) rest

/-- Modelled from the spec (the partitioner lives in the external
`simd_minimizers` crate, not in this repository): the minimizer position
of the k-mer window starting at `i` is the start offset of the
lexicographically smallest (2-bit-code order) m-mer among the `w` m-mers
covering the window, ties broken by the leftmost occurrence. -/
def minposAt (seg : List Base) (m w i : Nat) : Nat :=
  minScan seg m i ((List.range w).map (fun off => i + off))

/-- The number of k-mer start positions of a segment, `len - (k - 1)`:
the sentinel value pushed after the superkmer start positions
(main.rs line 89). -/
def nKmers (seg : List Base) (k : Nat) : Nat := seg.length - (k - 1)

/-- Modelled from the spec: the superkmer start positions delivered by
`minimizer_and_superkmer_positions` — the k-mer start positions that open
a maximal run of consecutive starts sharing one minimizer position. -/
def skStarts (seg : List Base) (k m : Nat) : List Nat :=
  (List.range (nKmers seg k)).filter (fun i =>
    i == 0 ||
      !(minposAt seg m (k - m + 1) (i - 1) == minposAt seg m (k - m + 1) i))

/-- Consecutive pairs of a list, as visited by the `zip`/`skip(1)` loop of
`process_record` (main.rs lines 90-106). -/
def consecPairs : List Nat → List (Nat × Nat)
  | a :: b :: rest => (a, b) :: consecPairs (b :: rest)
  | _ => []

/-- The (start, next start) pairs of the superkmer runs of one segment,
with the sentinel `len - (k - 1)` closing the last run. -/
def skRuns (seg : List Base) (k m : Nat) : List (Nat × Nat) :=
  consecPairs (skStarts seg k m ++ [nKmers seg k])

/-- The encoded superkmer word for base range `[lo, hi)` of a segment
(main.rs lines 97-102): the range is split at its midpoint, each half is
packed little-endian, the upper half is shifted past the lower one, the
combination is shifted left by `SKLEN_BITS` and ORed with the base count.
The Rust value is a `u128`, so the result is reduced mod `2^128`: a
machine left shift silently discards the bits pushed past bit 127. -/
def encodeRange (seg : List Base) (lo hi : Nat) : Nat :=
  let mid := (lo + hi) / 2
  let left := sliceWord seg lo (mid - lo)
  let right := sliceWord seg mid (hi - mid)
  ((((right <<< (2 * (mid - lo))) ||| left) <<< SKLEN_BITS) ||| (hi - lo)) % 2 ^ 128

/-- Processing of one Cleaned Segment: every superkmer run contributes the
pair of its shard index — the packed value of the `SHARD_BASES` bases at
the run's minimizer position (main.rs lines 95-96) — and its encoded word
(main.rs lines 97-103). -/
def segPairs (seg : List Base) (k m : Nat) : List (Nat × Nat) :=
  (skRuns seg k m).map (fun r =>
    (sliceWord seg (minposAt seg m (k - m + 1) r.1) SHARD_BASES,
     encodeRange seg r.1 (r.2 + k - 1)))

/-- `SuperkmerCollector::process_record`: the (shard index, encoded word)
pairs one record pushes into the shared buckets. -/
def processRecord (k m : Nat) (record : List Nat) : List (Nat × Nat) :=
  (cleanedSegments k record).flatMap (fun seg => segPairs seg k m)

/-- The k-mers extracted from one encoded word by the counting loop
(main.rs lines 223-229): the low `SKLEN_BITS` bits give the stored length
`len`, the loop bound `len - k + 1` is evaluated in wrapping 64-bit machine
arithmetic, and the k-mer at offset `i` is the shifted body masked to
`2*k` bits. -/
def kmersOfWord (k w : Nat) : List Nat :=
  let len := w % 2 ^ SKLEN_BITS
  let body := w >>> SKLEN_BITS
  (List.range ((len + (2 ^ 64 - k) + 1) % 2 ^ 64)).map
    (fun i => (body >>> (2 * i)) % 2 ^ (2 * k))

/-- The final count over a list of (shard, word) pairs (main.rs lines
217-233): each shard's bucket is decoded into its k-mers, deduplicated by
the per-shard hash set, and the per-shard cardinalities are summed.  A
bucket that received no word contributes 0, so summing over the distinct
shard indices that occur equals the source's sum over all `SHARDS`
buckets. -/
def countPairs (k : Nat) (pairs : List (Nat × Nat)) : Nat :=
  (((pairs.map Prod.fst).dedup).map (fun sh =>
    ((pairs.filter (fun pr => pr.1 == sh)).flatMap
      (fun pr => kmersOfWord k pr.2)).dedup.length)).sum

/-- The whole pipeline on the multiset of ingested records: collect every
record's (shard, word) pairs, then count. -/
def pipelineCount (k m : Nat) (records : List (List Nat)) : Nat :=
  countPairs k (records.flatMap (processRecord k m))

/-- A file-system path, as a character list (`-i` argument or a line of a
list file). -/
abbrev FsPath := List Char

/-- What a path resolves to: a list file containing one path per line, or
a sequence file yielding a stream of records (each a raw byte string). -/
inductive FileData where
  | listing (paths : List FsPath)
  | records (recs : List (List Nat))
deriving DecidableEq

/-- `path.starts_with('@')` (main.rs line 142). -/
def isListPath (p : FsPath) : Bool :=
  match p with
  | c :: _ => c == '@'
  | [] => false

/-- The I/O structure of `collect_superkmers` (main.rs lines 123-190),
over an abstract file system `fs` mapping paths to contents (`none` means
the file fails to open).  In list mode the list file is opened with
`if let Ok(lines) = read_lines(path)`: when it fails to open, the body is
silently skipped and the untouched (empty) buckets are returned.  Every
file named inside the list, and the single file in non-list mode, is
opened with `from_path(..).expect(..)`, which aborts the process on
failure; a list file whose lines are not openable paths likewise aborts
at the first line.  `Except.error ()` models the abort. -/
def readAllRecords (fs : FsPath → Option FileData) (path : FsPath) :
    Except Unit (List (List Nat)) :=
  if isListPath path then
    match fs path with
    | some (FileData.listing ps) =>
      ps.foldlM (fun acc q =>
        match fs q with
        | some (FileData.records rs) => Except.ok (acc ++ rs)
        | _ => Except.error ()) []
    | some (FileData.records _) => Except.error ()
    | none => Except.ok []
  else
    match fs path with
    | some (FileData.records rs) => Except.ok rs
    | _ => Except.error ()

/-- The two `assert!`s of `main` (main.rs lines 195 and 197):
`k <= 32` and `m <= k`. -/
def configOk (k m : Nat) : Bool := decide (k ≤ 32) && decide (m ≤ k)

/-- `main` (main.rs lines 192-236): validate the configuration, then
ingest all records, then count; a failed `assert!` aborts the process
before any file is consulted. -/
def runMain (k m : Nat) (fs : FsPath → Option FileData) (path : FsPath) :
    Except Unit Nat :=
  if configOk k m then (readAllRecords fs path).map (pipelineCount k m)
  else Except.error ()

/-- ASCII bytes of a string literal. -/
def asciiOf (s : String) : List Nat := s.toList.map Char.toNat

/-- Packed bases of an N-free ASCII string. -/
def baseSeqOf (s : String) : List Base := (asciiOf s).map packBase

/-- The naive baseline of the spec: the list of sliding-window k-mer
values of a base sequence. -/
def naiveKmerList (k : Nat) (s : List Base) : List Nat :=
  (List.range (s.length + 1 - k)).map (fun i => seqVal ((s.drop i).take k))

/-- The naive baseline distinct count: the cardinality of the
sliding-window k-mer set. -/
def naiveDistinct (k : Nat) (s : List Base) : Nat :=
  (naiveKmerList k s).dedup.length

/-- Modelled from the spec: the decoder of an Encoded Superkmer Word —
the stored base count is the low `SKLEN_BITS` bits and base `i` is the
2-bit field at offset `i` of the body.  (The repository has no standalone
base decoder; the counting loop of main.rs lines 224-228 is exactly this
extraction instantiated at width `k`.) -/
def decodeSeq (w : Nat) : List Base :=
  (List.range (w % 2 ^ SKLEN_BITS)).map
    (fun i => ⟨((w >>> SKLEN_BITS) >>> (2 * i)) % 4, Nat.mod_lt _ (by norm_num)⟩)

/-- The encoder applied to a standalone base sequence: the encoding of
range `[0, |s|)` of itself. -/
def encodeSeq (s : List Base) : Nat := encodeRange s 0 s.length

/-- The k bases encoded in a `2k`-bit k-mer value, least-significant
2-bit field first: the inverse of `seqVal` on length-k windows. -/
def winOf (k v : Nat) : List Base :=
  (List.range k).map (fun j => ⟨v / 4 ^ j % 4, Nat.mod_lt _ (by norm_num)⟩)

/-- The shard determined by a k-mer value alone: the packed value of the
`SHARD_BASES` bases starting at the k-mer's own minimizer position.  When
`SHARD_BASES ≤ m` every occurrence of the k-mer is routed here. -/
def kmerShardFn (k m v : Nat) : Nat :=
  seqVal (((winOf k v).drop
    (minposAt (winOf k v) m (k - m + 1) 0)).take SHARD_BASES)

/-- A file system on which no path opens. -/
def fsNone : FsPath → Option FileData := fun _ => none

/-- A file system with a single sequence file `f` holding no record. -/
def fsEmptyFile : FsPath → Option FileData := fun p =>
  if p = "f".toList then some (FileData.records []) else none

/-- Fixture for list mode: list file `@L` names two sequence files whose
single records share the 8-mer `CAAAAAAA` in different right contexts. -/
def fs9 : FsPath → Option FileData := fun p =>
  if p = "@L".toList then some (FileData.listing ["f1".toList, "f2".toList])
  else if p = "f1".toList then some (FileData.records [asciiOf "CAAAAAAAC"])
  else if p = "f2".toList then some (FileData.records [asciiOf "CAAAAAAAG"])
  else none

/-- The per-file record content of the `fs9` fixture. -/
def rsOf9 : FsPath → List (List Nat) := fun p =>
  if p = "f1".toList then [asciiOf "CAAAAAAAC"]
  else if p = "f2".toList then [asciiOf "CAAAAAAAG"]
  else []

/-!
## Theorems
-/

/-- C1: the spec's baseline example requires the pipeline to report the
naive sliding-window distinct count 4 on record `ACGTACGTACGT` with k = 4
and m = 2, but the pipeline reports 7: the shard index is read from a
fixed window of `SHARD_BASES = 8` segment bases at the minimizer position
even when `m < 8`, so the window takes in context beyond the k-mers and
equal k-mers are counted in several shards. -/
theorem c1_small_input_count :
    pipelineCount 4 2 [asciiOf "ACGTACGTACGT"] = 7 ∧
      naiveDistinct 4 (baseSeqOf "ACGTACGTACGT") = 4 := by
  exact ⟨by decide, by decide⟩

/-- C2: with the valid configuration k = 8, m = 2, the two occurrences of
the byte-identical 8-mer `CAAAAAAA` (at position 0 of records `CAAAAAAAC`
and `CAAAAAAAG`) are routed to the different shard indices 16384 and
49152: the 8-base shard window starting at the 2-base minimizer reaches
one base past the k-mer, so the shard index is not a pure function of the
k-mer's window content. -/
theorem c2_shard_not_content_pure :
    (baseSeqOf "CAAAAAAAC").take 8 = (baseSeqOf "CAAAAAAAG").take 8 ∧
      (processRecord 8 2 (asciiOf "CAAAAAAAC")).map Prod.fst = [16384] ∧
      (processRecord 8 2 (asciiOf "CAAAAAAAG")).map Prod.fst = [49152] ∧
      (16384 : Nat) ≠ 49152 := by
  exact ⟨by decide, by decide, by decide, by decide⟩

/-- C3: the round trip fails at the claimed maximal span 63: encoding a
sequence of 63 bases needs `2*63 + SKLEN_BITS = 132` bits, so the `u128`
left shift silently drops the top two bases, and decoding returns them as
zero (`A`): `decode (encode (G^63)) = G^61 ++ [A, A] ≠ G^63`.  (Spans up
to 61 do round-trip; 62 and 63 do not.) -/
theorem c3_roundtrip_truncated :
    decodeSeq (encodeSeq (List.replicate 63 (3 : Base))) ≠
        List.replicate 63 (3 : Base) ∧
      decodeSeq (encodeSeq (List.replicate 63 (3 : Base))) =
        List.replicate 61 (3 : Base) ++ [0, 0] := by
  exact ⟨by decide, by decide⟩

/-- C7: an I/O failure on the list file itself is not fatal:
`collect_superkmers` opens the list with `if let Ok(lines) =
read_lines(path)`, so a list file that fails to open is silently skipped,
the untouched buckets are returned, and `main` reports the final count 0
instead of aborting the run. -/
theorem c7_missing_list_not_fatal :
    runMain 4 2 fsNone ("@L".toList) = Except.ok 0 := rfl

/-- C6 counterexample: `k = 0` is outside `[1, 32]`, yet the configuration
`k = 0, m = 0` passes both `assert!`s (they check only `k ≤ 32` and
`m ≤ k`), and the run proceeds past validation to I/O and reports a
count. -/
theorem c6_zero_k_not_detected :
    (0 : Nat) < 1 ∧ configOk 0 0 = true ∧
      runMain 0 0 fsEmptyFile ("f".toList) = Except.ok 0 :=
  ⟨by decide, rfl, rfl⟩

/-- C6 (amended): a configuration with `k > 32` or `m > k` is rejected by
the `assert!`s before any file is consulted: for every file system the
run aborts with an error. -/
theorem c6_validation_aborts (k m : Nat) (h : 32 < k ∨ k < m)
    (fs : FsPath → Option FileData) (path : FsPath) :
    runMain k m fs path = Except.error () := by
  have hcf : configOk k m = false := by
    simp only [configOk, Bool.and_eq_false_iff, decide_eq_false_iff_not]
    omega
  simp [runMain, hcf]

/-- Witness for `c6_validation_aborts` at `k = 33, m = 1`. -/
theorem c6_validation_aborts_witness :
    runMain 33 1 fsNone ("f".toList) = Except.error () :=
  c6_validation_aborts 33 1 (Or.inl (by norm_num)) fsNone ("f".toList)

/-- C9 counterexample: in list mode with k = 8, m = 2, the 8-mer
`CAAAAAAA` (packed value 1) occurs in both listed files but is counted in
two different shards, so the reported count is 4 while the corpus has only
3 distinct 8-mers — deduplication across files fails for `m < SHARD_BASES`. -/
theorem c9_cross_file_double_count :
    runMain 8 2 fs9 ("@L".toList) = Except.ok 4 ∧
      ([asciiOf "CAAAAAAAC", asciiOf "CAAAAAAAG"].flatMap
        (fun r => naiveKmerList 8 (r.map packBase))).dedup.length = 3 ∧
      (1 : Nat) ∈ naiveKmerList 8 (baseSeqOf "CAAAAAAAC") ∧
      (1 : Nat) ∈ naiveKmerList 8 (baseSeqOf "CAAAAAAAG") := by
  exact ⟨rfl, by decide, by decide, by decide⟩

/-- No piece produced by `splitSeq p` contains a byte satisfying `p`. -/
theorem splitSeq_no_delim (p : Nat → Bool) :
    ∀ l : List Nat, ∀ s ∈ splitSeq p l, ∀ b ∈ s, p b = false := by
  intro l
  induction l with
  | nil =>
    intro s hs b hb
    simp only [splitSeq, List.mem_singleton] at hs
    subst hs
    simp at hb
  | cons x t ih =>
    intro s hs b hb
    cases hsplit : splitSeq p t with
    | nil =>
      rw [splitSeq, hsplit] at hs
      simp only [List.mem_singleton] at hs
      subst hs
      simp at hb
    | cons cur done =>
      have heq : splitSeq p (x :: t) =
          if p x then [] :: cur :: done else (x :: cur) :: done := by
        rw [splitSeq, hsplit]
      rw [heq] at hs
      by_cases hx : p x
      · rw [if_pos hx] at hs
        simp only [List.mem_cons] at hs
        rcases hs with rfl | hs
        · simp at hb
        · exact ih s (hsplit ▸ List.mem_cons.mpr hs) b hb
      · rw [if_neg hx] at hs
        simp only [List.mem_cons] at hs
        rcases hs with rfl | hs
        · simp only [List.mem_cons] at hb
          rcases hb with rfl | hb
          · exact Bool.eq_false_iff.mpr hx
          · exact ih cur (hsplit ▸ List.mem_cons_self cur done) b hb
        · exact ih s (hsplit ▸ List.mem_cons_of_mem cur hs) b hb

/-- C8: every retained piece of a record contains no ambiguous-base byte
and has length ≥ k (so no counted k-mer can span an N-run); every Cleaned
Segment also keeps length ≥ k after line-break removal; and the spec's
example `ACGTNNNNACGT` with k = 4 (m = 2) yields distinct count 1. -/
theorem c8_n_isolation :
    (∀ (k : Nat) (record : List Nat), ∀ s ∈ rawPieces k record,
        (∀ b ∈ s, isN b = false) ∧ k ≤ s.length) ∧
      (∀ (k : Nat) (record : List Nat), ∀ seg ∈ cleanedSegments k record,
        k ≤ seg.length) ∧
      pipelineCount 4 2 [asciiOf "ACGTNNNNACGT"] = 1 := by
  refine ⟨?_, ?_, by decide⟩
  · intro k record s hs
    have hmem := List.mem_filter.mp hs
    exact ⟨splitSeq_no_delim isN record s hmem.1, by simpa using hmem.2⟩
  · intro k record seg hseg
    simpa using (List.mem_filter.mp hseg).2

/-- Witness for `c8_n_isolation`: the first retained piece of the example
record is N-free and long enough. -/
theorem c8_n_isolation_witness :
    (∀ b ∈ [65, 67, 71, 84], isN b = false) ∧
      (4 : Nat) ≤ ([65, 67, 71, 84] : List Nat).length :=
  c8_n_isolation.1 4 (asciiOf "ACGTNNNNACGT") [65, 67, 71, 84] (by decide)

/-- Permuting a list permutes its flat map. -/
theorem perm_flatMap {α β : Type} {l1 l2 : List α} (f : α → List β)
    (h : l1.Perm l2) : (l1.flatMap f).Perm (l2.flatMap f) := by
  rw [List.flatMap_def, List.flatMap_def]
  exact (h.map f).flatten

/-- The per-shard distinct count is a function of the multiset of
(shard, word) pairs: any permutation of the pairs gives the same count. -/
theorem countPairs_perm {k : Nat} {ps1 ps2 : List (Nat × Nat)}
    (h : ps1.Perm ps2) : countPairs k ps1 = countPairs k ps2 := by
  unfold countPairs
  have hg : ∀ sh : Nat,
      ((ps1.filter (fun pr => pr.1 == sh)).flatMap
        (fun pr => kmersOfWord k pr.2)).dedup.length =
      ((ps2.filter (fun pr => pr.1 == sh)).flatMap
        (fun pr => kmersOfWord k pr.2)).dedup.length := by
    intro sh
    exact ((perm_flatMap _ (h.filter _)).dedup).length_eq
  rw [List.map_congr_left (fun sh _ => hg sh)]
  exact (((h.map Prod.fst).dedup).map _).sum_eq

/-- C5: the reported distinct count depends only on the multiset of
records ingested and on the multiset of (shard, word) pairs inside the
buckets: permuting the record processing order (worker scheduling) or the
order of words within the buckets (append interleaving) never changes
it.  The thread count influences the run only through these orders. -/
theorem c5_order_invariance (k m : Nat) {rs1 rs2 : List (List Nat)}
    {ps1 ps2 : List (Nat × Nat)} (hr : rs1.Perm rs2) (hp : ps1.Perm ps2) :
    pipelineCount k m rs1 = pipelineCount k m rs2 ∧
      countPairs k ps1 = countPairs k ps2 :=
  ⟨countPairs_perm (perm_flatMap (processRecord k m) hr), countPairs_perm hp⟩

/-- Witness for `c5_order_invariance`: two records swapped, two bucket
entries swapped. -/
theorem c5_order_invariance_witness :
    pipelineCount 4 2 [asciiOf "ACGTACGT", asciiOf "CCCCCC"] =
        pipelineCount 4 2 [asciiOf "CCCCCC", asciiOf "ACGTACGT"] ∧
      countPairs 4 [(1, 300), (2, 300)] = countPairs 4 [(2, 300), (1, 300)] :=
  c5_order_invariance 4 2 (by decide) (by decide)

/-- Appending a further cut at the end of a cut list appends one more
consecutive pair. -/
theorem consecPairs_append_two (b c : Nat) :
    ∀ xs : List Nat, consecPairs (xs ++ [b, c]) = consecPairs (xs ++ [b]) ++ [(b, c)]
  | [] => rfl
  | [x] => rfl
  | x :: y :: t => by
    have ih := consecPairs_append_two b c (y :: t)
    simp only [List.cons_append] at ih ⊢
    rw [consecPairs, consecPairs, ih]
    rfl

/-- The superkmer runs cut from `(range N).filter q` with sentinel `N`
tile `range N` exactly, provided position 0 always opens a run. -/
theorem cuts_tile_range (q : Nat → Bool) (hq : q 0 = true) :
    ∀ N : Nat, (consecPairs ((List.range N).filter q ++ [N])).flatMap
      (fun r => List.range' r.1 (r.2 - r.1)) = List.range N := by
  intro N
  induction N with
  | zero => rfl
  | succ n ih =>
    rw [List.range_succ, List.filter_append]
    by_cases hqn : q n = true
    · rw [show List.filter q [n] = [n] from by simp [hqn]]
      rw [show (List.range n).filter q ++ [n] ++ [n + 1] =
            (List.range n).filter q ++ [n, n + 1] from by simp]
      rw [consecPairs_append_two, List.flatMap_append, ih]
      simp
    · rw [show List.filter q [n] = [] from by simp [hqn], List.append_nil]
      have hn0 : n ≠ 0 := by
        intro h0
        rw [h0, hq] at hqn
        exact hqn rfl
      have hne : (List.range n).filter q ≠ [] := by
        apply List.ne_nil_of_mem (a := 0)
        exact List.mem_filter.mpr
          ⟨List.mem_range.mpr (Nat.pos_of_ne_zero hn0), hq⟩
      obtain ⟨ys, a, hF⟩ : ∃ ys a, (List.range n).filter q = ys ++ [a] :=
        ⟨_, _, (List.dropLast_append_getLast hne).symm⟩
      have ha : a < n := by
        have ham : a ∈ (List.range n).filter q := by
          rw [hF]
          exact List.mem_append_right _ (List.mem_singleton_self a)
        exact List.mem_range.mp (List.mem_filter.mp ham).1
      rw [hF] at ih ⊢
      rw [show ys ++ [a] ++ [n] = ys ++ [a, n] from by simp] at ih
      rw [show ys ++ [a] ++ [n + 1] = ys ++ [a, n + 1] from by simp]
      rw [consecPairs_append_two, List.flatMap_append] at ih
      rw [consecPairs_append_two, List.flatMap_append]
      simp only [List.flatMap_cons, List.flatMap_nil, List.append_nil] at ih ⊢
      rw [show n + 1 - a = (n - a) + 1 from by omega, List.range'_concat]
      rw [show a + 1 * (n - a) = n from by omega]
      rw [← List.append_assoc, ih]

/-- C4: for a Cleaned Segment of length ≥ k and valid (k, m), the
superkmer runs tile the k-mer start positions `0..len-k+1` contiguously,
without overlap and without gaps, and their k-mer counts sum to
`len - k + 1`. -/
theorem c4_partition_complete (seg : List Base) (k m : Nat) (hm : 1 ≤ m)
    (hmk : m ≤ k) (hk : k ≤ seg.length) :
    (skRuns seg k m).flatMap (fun r => List.range' r.1 (r.2 - r.1)) =
        List.range (nKmers seg k) ∧
      ((skRuns seg k m).map (fun r => r.2 - r.1)).sum = seg.length - k + 1 := by
  have h1 : (skRuns seg k m).flatMap (fun r => List.range' r.1 (r.2 - r.1)) =
      List.range (nKmers seg k) := by
    unfold skRuns skStarts
    exact cuts_tile_range _ rfl (nKmers seg k)
  refine ⟨h1, ?_⟩
  have hlen := congrArg List.length h1
  rw [List.length_flatMap, List.length_range] at hlen
  have hmap : (skRuns seg k m).map (List.length ∘ fun r => List.range' r.1 (r.2 - r.1)) =
      (skRuns seg k m).map (fun r => r.2 - r.1) := by
    apply List.map_congr_left
    intro r _
    simp [List.length_range']
  rw [hmap] at hlen
  rw [hlen]
  unfold nKmers
  omega

/-- Witness for `c4_partition_complete` on segment `ACGTACGTACGT`,
k = 4, m = 2. -/
theorem c4_partition_complete_witness :
    (skRuns (baseSeqOf "ACGTACGTACGT") 4 2).flatMap
        (fun r => List.range' r.1 (r.2 - r.1)) =
        List.range (nKmers (baseSeqOf "ACGTACGTACGT") 4) ∧
      ((skRuns (baseSeqOf "ACGTACGTACGT") 4 2).map (fun r => r.2 - r.1)).sum =
        (baseSeqOf "ACGTACGTACGT").length - 4 + 1 :=
  c4_partition_complete (baseSeqOf "ACGTACGTACGT") 4 2 (by decide) (by decide)
    (by decide)

/-- The left-to-right minimum scan returns its seed or a scanned
position. -/
theorem minScan_mem (seg : List Base) (m : Nat) :
    ∀ (l : List Nat) (best : Nat),
      minScan seg m best l = best ∨ minScan seg m best l ∈ l
  | [], _ => Or.inl rfl
  | j :: rest, best => by
    rw [minScan]
    rcases minScan_mem seg m rest
        (if mmerRank seg m j < mmerRank seg m best then j else best) with h | h
    · rw [h]
      by_cases hc : mmerRank seg m j < mmerRank seg m best
      · rw [if_pos hc]
        exact Or.inr (List.mem_cons_self j rest)
      · rw [if_neg hc]
        exact Or.inl rfl
    · exact Or.inr (List.mem_cons_of_mem j h)

/-- The minimizer position of window `i` lies in `[i, i + w)`. -/
theorem minposAt_bounds (seg : List Base) (m w i : Nat) (hw : 1 ≤ w) :
    i ≤ minposAt seg m w i ∧ minposAt seg m w i < i + w := by
  unfold minposAt
  rcases minScan_mem seg m ((List.range w).map (fun off => i + off)) i with h | h
  · rw [h]
    omega
  · obtain ⟨off, hoff, heq⟩ := List.mem_map.mp h
    have hlt := List.mem_range.mp hoff
    omega

/-- Every consecutive pair is adjacent in the underlying list. -/
theorem consecPairs_decomp :
    ∀ (l : List Nat) (r : Nat × Nat), r ∈ consecPairs l →
      ∃ l1 l2, l = l1 ++ r.1 :: r.2 :: l2
  | [], r, hr => absurd hr (by simp [consecPairs])
  | [_], r, hr => absurd hr (by simp [consecPairs])
  | a :: b :: t, r, hr => by
    rw [consecPairs] at hr
    rcases List.mem_cons.mp hr with heq | hmem
    · subst heq
      exact ⟨[], t, rfl⟩
    · obtain ⟨l1, l2, h⟩ := consecPairs_decomp (b :: t) r hmem
      exact ⟨a :: l1, l2, by rw [List.cons_append, ← h]⟩

/-- In a strictly increasing list no member lies strictly between two
adjacent entries. -/
theorem pairwise_no_between {l1 l2 : List Nat} {s s2 c : Nat}
    (hpw : List.Pairwise (· < ·) (l1 ++ s :: s2 :: l2))
    (hc : c ∈ l1 ++ s :: s2 :: l2) (h1 : s < c) (h2 : c < s2) : False := by
  rw [List.pairwise_append] at hpw
  rcases List.mem_append.mp hc with hm | hm
  · exact absurd (hpw.2.2 c hm s (List.mem_cons_self _ _)) (by omega)
  · rcases List.mem_cons.mp hm with rfl | hm
    · omega
    rcases List.mem_cons.mp hm with rfl | hm
    · omega
    · have := (List.pairwise_cons.mp (List.pairwise_cons.mp hpw.2.1).2).1 c hm
      omega

/-- The cut list (run starts plus sentinel) is strictly increasing. -/
theorem cuts_pairwise (seg : List Base) (k m : Nat) :
    List.Pairwise (· < ·) (skStarts seg k m ++ [nKmers seg k]) := by
  apply List.pairwise_append.mpr
  refine ⟨?_, List.pairwise_singleton _ _, ?_⟩
  · exact List.Pairwise.sublist (List.filter_sublist _) (List.pairwise_lt_range _)
  · intro a ha b hb
    rw [List.mem_singleton] at hb
    subst hb
    exact List.mem_range.mp (List.mem_filter.mp ha).1

/-- Inside one superkmer run every k-mer start shares the run's minimizer
position. -/
theorem minpos_const_in_run (seg : List Base) (k m : Nat) {s s2 : Nat}
    (hr : (s, s2) ∈ skRuns seg k m) :
    ∀ d : Nat, s + d < s2 →
      minposAt seg m (k - m + 1) (s + d) = minposAt seg m (k - m + 1) s := by
  obtain ⟨l1, l2, hdec⟩ := consecPairs_decomp _ _ hr
  have hpw := cuts_pairwise seg k m
  have hs2mem : s2 ∈ skStarts seg k m ++ [nKmers seg k] := by
    rw [hdec]
    exact List.mem_append_right _ (List.mem_cons_of_mem _ (List.mem_cons_self _ _))
  have hs2N : s2 ≤ nKmers seg k := by
    rcases List.mem_append.mp hs2mem with h2 | h2
    · have := List.mem_range.mp (List.mem_filter.mp h2).1
      omega
    · rw [List.mem_singleton] at h2
      omega
  intro d
  induction d with
  | zero => intro _; rfl
  | succ e ihe =>
    intro hlt
    have he : s + e < s2 := by omega
    have hnotin : (s + e + 1) ∉ skStarts seg k m ++ [nKmers seg k] := by
      intro hmem
      exact pairwise_no_between (hdec ▸ hpw) (hdec ▸ hmem) (by omega) (by omega)
    cases hcase : ((s + e + 1 : Nat) == 0 ||
        !(minposAt seg m (k - m + 1) (s + e + 1 - 1) ==
          minposAt seg m (k - m + 1) (s + e + 1))) with
    | true =>
      exfalso
      apply hnotin
      apply List.mem_append_left
      exact List.mem_filter.mpr ⟨List.mem_range.mpr (by omega), hcase⟩
    | false =>
      have hbeq : (minposAt seg m (k - m + 1) (s + e + 1 - 1) ==
          minposAt seg m (k - m + 1) (s + e + 1)) = true := by
        cases hB : (minposAt seg m (k - m + 1) (s + e + 1 - 1) ==
            minposAt seg m (k - m + 1) (s + e + 1)) with
        | true => rfl
        | false =>
          rw [hB] at hcase
          simp at hcase
      have heqm : minposAt seg m (k - m + 1) (s + e) =
          minposAt seg m (k - m + 1) (s + e + 1) := by
        have h2 := of_decide_eq_true (by simpa using hbeq)
        simpa using h2
      rw [show s + (e + 1) = s + e + 1 from rfl, ← heqm]
      exact ihe he

/-- The low `SKLEN_BITS` bits of an encoded word are exactly the base
count of the encoded range, as long as it fits in the field. -/
theorem encodeRange_low_bits (seg : List Base) (lo hi : Nat)
    (h : hi - lo < 2 ^ SKLEN_BITS) :
    encodeRange seg lo hi % 2 ^ SKLEN_BITS = hi - lo := by
  simp only [encodeRange]
  rw [Nat.mod_mod_of_dvd _ (pow_dvd_pow 2 (by norm_num [SKLEN_BITS]))]
  rw [Nat.shiftLeft_eq, Nat.mul_comm _ (2 ^ SKLEN_BITS)]
  rw [← Nat.mul_add_lt_is_or h]
  rw [Nat.mul_add_mod]
  exact Nat.mod_eq_of_lt h

/-- The number of k-mers the counting loop extracts from a word. -/
theorem kmersOfWord_length (k w : Nat) :
    (kmersOfWord k w).length =
      (w % 2 ^ SKLEN_BITS + (2 ^ 64 - k) + 1) % 2 ^ 64 := by
  simp [kmersOfWord]

/-- C10: under `1 ≤ m ≤ k ≤ 32`, every superkmer run of a segment of
length ≥ k holds `c = r.2 - r.1 ≥ 1` k-mers with `c ≤ w = k - m + 1`; its
true span `c + k - 1` satisfies `k ≤ span ≤ 63`, the span is stored in the
6-bit length field without truncation, and the counting loop's wrapping
`len - k + 1` equals `c` exactly — no underflow, and every stored word
yields exactly its `c` k-mers. -/
theorem c10_span_bounds (seg : List Base) (k m : Nat) (hm : 1 ≤ m)
    (hmk : m ≤ k) (hk32 : k ≤ 32) (hk : k ≤ seg.length) :
    ∀ r ∈ skRuns seg k m,
      r.1 < r.2 ∧
        r.2 - r.1 ≤ k - m + 1 ∧
        k ≤ r.2 + k - 1 - r.1 ∧
        r.2 + k - 1 - r.1 ≤ 63 ∧
        encodeRange seg r.1 (r.2 + k - 1) % 2 ^ SKLEN_BITS =
          r.2 + k - 1 - r.1 ∧
        (kmersOfWord k (encodeRange seg r.1 (r.2 + k - 1))).length =
          r.2 - r.1 := by
  intro r hr
  obtain ⟨s, s2⟩ := r
  obtain ⟨l1, l2, hdec⟩ := consecPairs_decomp _ _ hr
  have hpw := cuts_pairwise seg k m
  rw [hdec] at hpw
  have hlt : s < s2 := by
    have hp2 := (List.pairwise_append.mp hpw).2.1
    exact (List.pairwise_cons.mp hp2).1 s2 (List.mem_cons_self _ _)
  have hw : 1 ≤ k - m + 1 := by omega
  have hcw : s2 - s ≤ k - m + 1 := by
    have hconst := minpos_const_in_run seg k m hr (s2 - 1 - s)
      (by omega : s + (s2 - 1 - s) < s2)
    rw [show s + (s2 - 1 - s) = s2 - 1 from by omega] at hconst
    have hb1 := minposAt_bounds seg m (k - m + 1) (s2 - 1) hw
    have hb2 := minposAt_bounds seg m (k - m + 1) s hw
    omega
  have hspan : s2 + k - 1 - s < 2 ^ SKLEN_BITS := by
    have : (2 : Nat) ^ SKLEN_BITS = 64 := by norm_num [SKLEN_BITS]
    omega
  have hlow := encodeRange_low_bits seg s (s2 + k - 1) hspan
  refine ⟨hlt, hcw, by omega, ?_, hlow, ?_⟩
  · have : (2 : Nat) ^ SKLEN_BITS = 64 := by norm_num [SKLEN_BITS]
    omega
  · rw [kmersOfWord_length, hlow]
    have h64 : (2 : Nat) ^ 64 = 18446744073709551616 := by norm_num
    rw [h64]
    omega

/-- Witness for `c10_span_bounds`: the run `(2, 5)` of segment
`ACGTACGTACGT` with k = 4, m = 2 (3 k-mers, span 6). -/
theorem c10_span_bounds_witness :
    (2 : Nat) < 5 ∧
      (5 : Nat) - 2 ≤ 4 - 2 + 1 ∧
      (4 : Nat) ≤ 5 + 4 - 1 - 2 ∧
      (5 : Nat) + 4 - 1 - 2 ≤ 63 ∧
      encodeRange (baseSeqOf "ACGTACGTACGT") 2 (5 + 4 - 1) % 2 ^ SKLEN_BITS =
        5 + 4 - 1 - 2 ∧
      (kmersOfWord 4
        (encodeRange (baseSeqOf "ACGTACGTACGT") 2 (5 + 4 - 1))).length =
        5 - 2 :=
  c10_span_bounds (baseSeqOf "ACGTACGTACGT") 4 2 (by decide) (by decide)
    (by decide) (by decide) (2, 5) (by decide)

/-- Packed value of a concatenation. -/
theorem seqVal_append : ∀ a b : List Base,
    seqVal (a ++ b) = seqVal a + 4 ^ a.length * seqVal b
  | [], b => by simp [seqVal]
  | x :: t, b => by
    rw [List.cons_append,
      show seqVal (x :: (t ++ b)) = x.val + 4 * seqVal (t ++ b) from rfl,
      show seqVal (x :: t) = x.val + 4 * seqVal t from rfl,
      seqVal_append t b, List.length_cons, pow_succ]
    ring

/-- A packed value is bounded by 4 to the sequence length. -/
theorem seqVal_lt : ∀ l : List Base, seqVal l < 4 ^ l.length
  | [] => by simp [seqVal]
  | x :: t => by
    have ih := seqVal_lt t
    have hx := x.isLt
    simp only [seqVal, List.length_cons, pow_succ]
    omega

/-- Dropping bases divides the packed value by the corresponding power
of 4. -/
theorem seqVal_drop : ∀ (l : List Base) (i : Nat),
    seqVal (l.drop i) = seqVal l / 4 ^ i
  | [], i => by simp [seqVal]
  | _ :: _, 0 => by simp
  | x :: t, i + 1 => by
    have hx := x.isLt
    rw [List.drop_succ_cons, seqVal_drop t i, seqVal, pow_succ,
      Nat.mul_comm (4 ^ i) 4, ← Nat.div_div_eq_div_mul]
    congr 1
    omega

/-- Taking bases reduces the packed value modulo the corresponding power
of 4. -/
theorem seqVal_take (l : List Base) (i : Nat) :
    seqVal (l.take i) = seqVal l % 4 ^ i := by
  have hval : seqVal l =
      seqVal (l.take i) + 4 ^ (l.take i).length * seqVal (l.drop i) := by
    conv_lhs => rw [← List.take_append_drop i l]
    exact seqVal_append _ _
  by_cases hil : i ≤ l.length
  · have hlen : (l.take i).length = i := by
      rw [List.length_take]
      omega
    have hA := seqVal_lt (l.take i)
    rw [hlen] at hval hA
    rw [hval, Nat.add_mul_mod_self_left, Nat.mod_eq_of_lt hA]
  · have hdrop : l.drop i = [] := List.drop_eq_nil_of_le (by omega)
    rw [hdrop] at hval
    simp only [seqVal, Nat.mul_zero, Nat.add_zero] at hval
    have hA : seqVal l < 4 ^ i := by
      have hlt := seqVal_lt l
      have hpow : (4 : Nat) ^ l.length ≤ 4 ^ i :=
        Nat.pow_le_pow_right (by norm_num) (by omega)
      omega
    rw [← hval, Nat.mod_eq_of_lt hA]

/-- Decoding a window's packed value recovers the window. -/
theorem winOf_seqVal (l : List Base) : winOf l.length (seqVal l) = l := by
  apply List.ext_getElem
  · simp [winOf]
  · intro j h1 h2
    simp only [winOf, List.getElem_map, List.getElem_range]
    apply Fin.ext
    show seqVal l / 4 ^ j % 4 = l[j].val
    have hdrop : (l.drop j).take 1 = [l[j]] :=
      List.take_one_drop_eq_of_lt_length h2
    have hone : seqVal ((l.drop j).take 1) = l[j].val := by
      rw [hdrop]
      simp [seqVal]
    rw [seqVal_take, seqVal_drop] at hone
    simpa using hone

/-- The minimum scan commutes with shifting all scanned positions by a
common base, whenever the ranks of corresponding positions agree. -/
theorem minScan_shift (seg win : List Base) (m base : Nat) :
    ∀ (l : List Nat) (b : Nat),
      (∀ j, (j = b ∨ j ∈ l) → mmerRank seg m (base + j) = mmerRank win m j) →
      minScan seg m (base + b) (l.map (fun j => base + j)) =
        base + minScan win m b l
  | [], _, _ => rfl
  | j :: rest, b, hrank => by
    rw [List.map_cons, minScan, minScan]
    rw [hrank j (Or.inr (List.mem_cons_self _ _)), hrank b (Or.inl rfl)]
    by_cases hc : mmerRank win m j < mmerRank win m b
    · rw [if_pos hc, if_pos hc]
      refine minScan_shift seg win m base rest j (fun j2 hj2 => hrank j2 ?_)
      rcases hj2 with h | h
      · exact Or.inr (by rw [h]; exact List.mem_cons_self _ _)
      · exact Or.inr (List.mem_cons_of_mem _ h)
    · rw [if_neg hc, if_neg hc]
      refine minScan_shift seg win m base rest b (fun j2 hj2 => hrank j2 ?_)
      rcases hj2 with h | h
      · exact Or.inl h
      · exact Or.inr (List.mem_cons_of_mem _ h)

/-- The minimizer position of a window only depends on the window's
content: it is the window start plus the window-relative minimizer
position of the extracted k bases. -/
theorem minposAt_window (seg : List Base) (k m w i : Nat)
    (hw : w ≤ k - m + 1) (hmk : m ≤ k) :
    minposAt seg m w i = i + minposAt ((seg.drop i).take k) m w 0 := by
  unfold minposAt
  have hrank : ∀ j, (j = 0 ∨ j ∈ List.range w) →
      mmerRank seg m (i + j) = mmerRank ((seg.drop i).take k) m j := by
    intro j hj
    have hjw : j = 0 ∨ j < w := by
      rcases hj with h | h
      · exact Or.inl h
      · exact Or.inr (List.mem_range.mp h)
    have hjk : j + m ≤ k := by omega
    unfold mmerRank
    rw [List.drop_take, List.drop_drop, List.take_take]
    congr 2
    omega
  have h0 : (List.range w).map (fun off => (0 : Nat) + off) = List.range w := by
    simp
  rw [h0]
  have hshift := minScan_shift seg ((seg.drop i).take k) m i (List.range w) 0
    hrank
  simpa using hshift

/-- On an in-range span that fits the length field, the encoded word is
the packed window value shifted past the length field (mod `2^128`): the
midpoint split-and-recombine of the encoder reassembles the window. -/
theorem encodeRange_eq (seg : List Base) (lo hi : Nat) (h1 : lo ≤ hi)
    (h2 : hi ≤ seg.length) (h3 : hi - lo < 2 ^ SKLEN_BITS) :
    encodeRange seg lo hi =
      (seqVal ((seg.drop lo).take (hi - lo)) * 2 ^ SKLEN_BITS + (hi - lo)) %
        2 ^ 128 := by
  have hmid1 : lo ≤ (lo + hi) / 2 := by omega
  have hmid2 : (lo + hi) / 2 ≤ hi := by omega
  have hsplit : (seg.drop lo).take (hi - lo) =
      (seg.drop lo).take ((lo + hi) / 2 - lo) ++
        (seg.drop ((lo + hi) / 2)).take (hi - (lo + hi) / 2) := by
    rw [show hi - lo = ((lo + hi) / 2 - lo) + (hi - (lo + hi) / 2) from by
        omega,
      List.take_add, List.drop_drop]
    congr 3
    omega
  have hlenA : ((seg.drop lo).take ((lo + hi) / 2 - lo)).length =
      (lo + hi) / 2 - lo := by
    rw [List.length_take, List.length_drop]
    omega
  have hleft_lt : seqVal ((seg.drop lo).take ((lo + hi) / 2 - lo)) <
      2 ^ (2 * ((lo + hi) / 2 - lo)) := by
    have hs := seqVal_lt ((seg.drop lo).take ((lo + hi) / 2 - lo))
    rw [hlenA] at hs
    calc seqVal ((seg.drop lo).take ((lo + hi) / 2 - lo))
        < 4 ^ ((lo + hi) / 2 - lo) := hs
      _ = 2 ^ (2 * ((lo + hi) / 2 - lo)) := by
          rw [pow_mul]
          norm_num
  have hcomb : 2 ^ (2 * ((lo + hi) / 2 - lo)) *
        seqVal ((seg.drop ((lo + hi) / 2)).take (hi - (lo + hi) / 2)) +
        seqVal ((seg.drop lo).take ((lo + hi) / 2 - lo)) =
      seqVal ((seg.drop lo).take (hi - lo)) := by
    rw [hsplit, seqVal_append, hlenA, pow_mul]
    norm_num
    ring
  simp only [encodeRange, sliceWord]
  congr 1
  rw [Nat.shiftLeft_eq
      (seqVal ((seg.drop ((lo + hi) / 2)).take (hi - (lo + hi) / 2)))
      (2 * ((lo + hi) / 2 - lo)),
    Nat.mul_comm
      (seqVal ((seg.drop ((lo + hi) / 2)).take (hi - (lo + hi) / 2)))
      (2 ^ (2 * ((lo + hi) / 2 - lo))),
    ← Nat.mul_add_lt_is_or hleft_lt, hcomb,
    Nat.shiftLeft_eq (seqVal ((seg.drop lo).take (hi - lo))) SKLEN_BITS,
    Nat.mul_comm (seqVal ((seg.drop lo).take (hi - lo))) (2 ^ SKLEN_BITS),
    ← Nat.mul_add_lt_is_or h3, Nat.mul_comm]

/-- Decoding correctness: for an in-range run whose span stays within 61
bases (always the case when `SHARD_BASES ≤ m`), the counting loop
extracts from the encoded word exactly the packed values of the k-wide
windows of the encoded range. -/
theorem kmersOfWord_encode (seg : List Base) (k lo hi : Nat) (h1 : 1 ≤ k)
    (h2 : lo + k ≤ hi) (h3 : hi ≤ seg.length) (h4 : hi - lo ≤ 61) :
    kmersOfWord k (encodeRange seg lo hi) =
      (List.range (hi - lo - k + 1)).map
        (fun i => seqVal ((seg.drop (lo + i)).take k)) := by
  have hspan64 : hi - lo < 2 ^ SKLEN_BITS := by
    have hp : (2 : Nat) ^ SKLEN_BITS = 64 := by norm_num [SKLEN_BITS]
    omega
  have hlen := encodeRange_low_bits seg lo hi hspan64
  have henc := encodeRange_eq seg lo hi (by omega) h3 hspan64
  simp only [kmersOfWord]
  rw [hlen]
  rw [show (hi - lo + (2 ^ 64 - k) + 1) % 2 ^ 64 = hi - lo - k + 1 from by
    have h64 : (2 : Nat) ^ 64 = 18446744073709551616 := by norm_num
    rw [h64]
    omega]
  apply List.map_congr_left
  intro i hi2
  have hik : i + k ≤ hi - lo := by
    have := List.mem_range.mp hi2
    omega
  have hbody : encodeRange seg lo hi >>> SKLEN_BITS =
      seqVal ((seg.drop lo).take (hi - lo)) % 2 ^ 122 := by
    rw [henc, Nat.shiftRight_eq_div_pow,
      show (2 : Nat) ^ 128 = 2 ^ SKLEN_BITS * 2 ^ 122 from by
        norm_num [SKLEN_BITS],
      Nat.mod_mul_right_div_self]
    congr 1
    rw [Nat.mul_comm (seqVal ((seg.drop lo).take (hi - lo))) (2 ^ SKLEN_BITS),
      Nat.mul_add_div (Nat.two_pow_pos SKLEN_BITS),
      Nat.div_eq_of_lt hspan64, Nat.add_zero]
  rw [hbody, Nat.shiftRight_eq_div_pow,
    show (2 : Nat) ^ 122 = 2 ^ (2 * i) * 2 ^ (122 - 2 * i) from by
      rw [← pow_add]
      congr 1
      omega,
    Nat.mod_mul_right_div_self,
    Nat.mod_mod_of_dvd _ (pow_dvd_pow 2 (by omega : 2 * k ≤ 122 - 2 * i)),
    show (2 : Nat) ^ (2 * i) = 4 ^ i from by rw [pow_mul]; norm_num,
    show (2 : Nat) ^ (2 * k) = 4 ^ k from by rw [pow_mul]; norm_num,
    ← seqVal_drop, ← seqVal_take]
  congr 1
  rw [List.drop_take, List.drop_drop, List.take_take]
  congr 1
  omega

/-- Basic facts about a superkmer run: it is nonempty, ends at or before
the sentinel, and holds at most `w = k - m + 1` k-mers. -/
theorem skRuns_facts (seg : List Base) (k m : Nat) (hmk : m ≤ k) {s s2 : Nat}
    (hr : (s, s2) ∈ skRuns seg k m) :
    s < s2 ∧ s2 ≤ nKmers seg k ∧ s2 - s ≤ k - m + 1 := by
  obtain ⟨l1, l2, hdec⟩ := consecPairs_decomp _ _ hr
  have hpw := cuts_pairwise seg k m
  rw [hdec] at hpw
  have hlt : s < s2 := by
    have hp2 := (List.pairwise_append.mp hpw).2.1
    exact (List.pairwise_cons.mp hp2).1 s2 (List.mem_cons_self _ _)
  have hs2mem : s2 ∈ skStarts seg k m ++ [nKmers seg k] := by
    rw [hdec]
    exact List.mem_append_right _
      (List.mem_cons_of_mem _ (List.mem_cons_self _ _))
  have hs2N : s2 ≤ nKmers seg k := by
    rcases List.mem_append.mp hs2mem with h2 | h2
    · have := List.mem_range.mp (List.mem_filter.mp h2).1
      omega
    · rw [List.mem_singleton] at h2
      omega
  have hw : 1 ≤ k - m + 1 := by omega
  have hcw : s2 - s ≤ k - m + 1 := by
    have hconst := minpos_const_in_run seg k m hr (s2 - 1 - s)
      (by omega : s + (s2 - 1 - s) < s2)
    rw [show s + (s2 - 1 - s) = s2 - 1 from by omega] at hconst
    have hb1 := minposAt_bounds seg m (k - m + 1) (s2 - 1) hw
    have hb2 := minposAt_bounds seg m (k - m + 1) s hw
    omega
  exact ⟨hlt, hs2N, hcw⟩

/-- With `SHARD_BASES ≤ m`, the shard of every word a record pushes is
determined by each of the word's k-mer values alone: the shard window
sits inside the k-mer, and the minimizer is a pure function of the
k-mer's content. -/
theorem processRecord_shard_fn (k m : Nat) (hm8 : SHARD_BASES ≤ m)
    (hmk : m ≤ k) (hk32 : k ≤ 32) (record : List Nat) :
    ∀ pr ∈ processRecord k m record, ∀ v ∈ kmersOfWord k pr.2,
      pr.1 = kmerShardFn k m v := by
  have h8 : SHARD_BASES = 8 := rfl
  intro pr hpr v hv
  rw [processRecord] at hpr
  obtain ⟨seg, hseg, hpr2⟩ := List.mem_flatMap.mp hpr
  have hsegk : k ≤ seg.length := by
    simpa using (List.mem_filter.mp hseg).2
  rw [segPairs] at hpr2
  obtain ⟨r, hrun, hpr3⟩ := List.mem_map.mp hpr2
  obtain ⟨s, s2⟩ := r
  obtain ⟨hlt, hs2N, hcw⟩ := skRuns_facts seg k m hmk hrun
  have hN : nKmers seg k = seg.length - (k - 1) := rfl
  have hm1 : 1 ≤ m := by omega
  have hk1 : 1 ≤ k := by omega
  subst hpr3
  dsimp only at hv ⊢
  have hhi : s2 + k - 1 ≤ seg.length := by omega
  have hspan61 : s2 + k - 1 - s ≤ 61 := by omega
  rw [kmersOfWord_encode seg k s (s2 + k - 1) hk1 (by omega) hhi hspan61]
    at hv
  obtain ⟨i, hi_mem, hvi⟩ := List.mem_map.mp hv
  have hi_lt : i < s2 - s := by
    have := List.mem_range.mp hi_mem
    omega
  have hwinlen : ((seg.drop (s + i)).take k).length = k := by
    rw [List.length_take, List.length_drop]
    omega
  have hwv : winOf k v = (seg.drop (s + i)).take k := by
    have hrt := winOf_seqVal ((seg.drop (s + i)).take k)
    rw [hwinlen, hvi] at hrt
    exact hrt
  have hconst := minpos_const_in_run seg k m hrun i (by omega)
  have hwin := minposAt_window seg k m (k - m + 1) (s + i) (le_refl _) hmk
  have hprel := (minposAt_bounds ((seg.drop (s + i)).take k) m (k - m + 1) 0
    (by omega)).2
  rw [← hconst, hwin, kmerShardFn, hwv]
  unfold sliceWord
  congr 1
  rw [List.drop_take, List.drop_drop, List.take_take]
  congr 1
  omega

/-- When the shard of every stored word is determined by each of its
k-mer values, the summed per-shard distinct counts equal the distinct
count of all k-mers together: the shards partition the k-mer set into
fibers. -/
theorem countPairs_eq_of_shard_fn (k : Nat) (f : Nat → Nat)
    (pairs : List (Nat × Nat))
    (hf : ∀ pr ∈ pairs, ∀ v ∈ kmersOfWord k pr.2, pr.1 = f v) :
    countPairs k pairs =
      (pairs.flatMap (fun pr => kmersOfWord k pr.2)).dedup.length := by
  unfold countPairs
  have hfiber : ∀ sh : Nat,
      ((pairs.filter (fun pr => pr.1 == sh)).flatMap
        (fun pr => kmersOfWord k pr.2)).toFinset =
      ((pairs.flatMap (fun pr => kmersOfWord k pr.2)).toFinset).filter
        (fun v => f v = sh) := by
    intro sh
    apply Finset.ext
    intro v
    simp only [List.mem_toFinset, Finset.mem_filter, List.mem_flatMap,
      List.mem_filter]
    constructor
    · rintro ⟨pr, ⟨hpr, hsh⟩, hvk⟩
      have hsh2 : pr.1 = sh := by simpa using hsh
      exact ⟨⟨pr, hpr, hvk⟩, by rw [← hf pr hpr v hvk, hsh2]⟩
    · rintro ⟨⟨pr, hpr, hvk⟩, hfv⟩
      refine ⟨pr, ⟨hpr, ?_⟩, hvk⟩
      have heq : pr.1 = sh := by rw [hf pr hpr v hvk, hfv]
      simpa using heq
  have hsummand : ∀ sh : Nat,
      ((pairs.filter (fun pr => pr.1 == sh)).flatMap
        (fun pr => kmersOfWord k pr.2)).dedup.length =
      (((pairs.flatMap (fun pr => kmersOfWord k pr.2)).toFinset).filter
        (fun v => f v = sh)).card := by
    intro sh
    rw [← List.card_toFinset, hfiber]
  rw [List.map_congr_left (fun sh _ => hsummand sh)]
  rw [← List.sum_toFinset _ (List.nodup_dedup _)]
  rw [show ((pairs.map Prod.fst).dedup).toFinset =
      (pairs.map Prod.fst).toFinset from by
    apply Finset.ext
    intro sh
    simp [List.mem_dedup]]
  rw [← List.card_toFinset]
  symm
  apply Finset.card_eq_sum_card_fiberwise
  intro v hv
  rw [List.mem_toFinset, List.mem_flatMap] at hv
  obtain ⟨pr, hpr, hvk⟩ := hv
  rw [List.mem_toFinset, List.mem_map]
  exact ⟨pr, hpr, hf pr hpr v hvk⟩

/-- With `SHARD_BASES ≤ m ≤ k ≤ 32` the pipeline's reported count equals
the number of distinct k-mer values of the whole ingested corpus: every
value lands in the single shard its own content determines, so it is
counted exactly once no matter in how many records it occurs. -/
theorem pipelineCount_eq_distinct (k m : Nat) (hm8 : SHARD_BASES ≤ m)
    (hmk : m ≤ k) (hk32 : k ≤ 32) (records : List (List Nat)) :
    pipelineCount k m records =
      ((records.flatMap (processRecord k m)).flatMap
        (fun pr => kmersOfWord k pr.2)).dedup.length := by
  unfold pipelineCount
  apply countPairs_eq_of_shard_fn k (kmerShardFn k m)
  intro pr hpr v hv
  obtain ⟨record, _, hpr2⟩ := List.mem_flatMap.mp hpr
  exact processRecord_shard_fn k m hm8 hmk hk32 record pr hpr2 v hv

/-- The record-collecting fold of `collect_superkmers` accumulates every
listed file's records in order. -/
theorem foldlM_records (fs : FsPath → Option FileData)
    (rsOf : FsPath → List (List Nat)) :
    ∀ (ps : List FsPath) (acc : List (List Nat)),
      (∀ p ∈ ps, fs p = some (FileData.records (rsOf p))) →
      List.foldlM (fun acc q =>
        match fs q with
        | some (FileData.records rs) => Except.ok (acc ++ rs)
        | _ => Except.error ()) acc ps = Except.ok (acc ++ ps.flatMap rsOf)
  | [], acc, _ => by
    rw [List.foldlM_nil, List.flatMap_nil, List.append_nil]
    rfl
  | p :: rest, acc, hps => by
    simp only [List.foldlM_cons]
    rw [hps p (List.mem_cons_self _ _)]
    show List.foldlM _ (acc ++ rsOf p) rest = _
    rw [foldlM_records fs rsOf rest (acc ++ rsOf p)
      (fun q hq => hps q (List.mem_cons_of_mem _ hq))]
    rw [List.flatMap_cons, List.append_assoc]

/-- In list mode, when every listed file opens, ingestion returns the
concatenation of all listed files' records. -/
theorem readAllRecords_listing (fs : FsPath → Option FileData) (L : FsPath)
    (ps : List FsPath) (rsOf : FsPath → List (List Nat))
    (hat : isListPath L = true) (hL : fs L = some (FileData.listing ps))
    (hps : ∀ p ∈ ps, fs p = some (FileData.records (rsOf p))) :
    readAllRecords fs L = Except.ok (ps.flatMap rsOf) := by
  rw [readAllRecords, if_pos hat, hL]
  show List.foldlM _ [] ps = _
  rw [foldlM_records fs rsOf ps [] hps, List.nil_append]

/-- C9 (amended): in list-file mode every listed file's records are
ingested into the one shared bucket collection before the single counting
phase — the run processes exactly the concatenation of all listed files'
records — and, provided `SHARD_BASES ≤ m`, the reported count equals the
number of distinct k-mer values across that whole corpus, so a k-mer
occurring in several listed files contributes exactly once. -/
theorem c9_cross_file_dedup (k m : Nat) (hm8 : SHARD_BASES ≤ m)
    (hmk : m ≤ k) (hk32 : k ≤ 32) (fs : FsPath → Option FileData)
    (L : FsPath) (ps : List FsPath) (rsOf : FsPath → List (List Nat))
    (hat : isListPath L = true) (hL : fs L = some (FileData.listing ps))
    (hps : ∀ p ∈ ps, fs p = some (FileData.records (rsOf p))) :
    readAllRecords fs L = Except.ok (ps.flatMap rsOf) ∧
      runMain k m fs L = Except.ok
        ((((ps.flatMap rsOf).flatMap (processRecord k m)).flatMap
          (fun pr => kmersOfWord k pr.2)).dedup.length) := by
  have hread := readAllRecords_listing fs L ps rsOf hat hL hps
  refine ⟨hread, ?_⟩
  have hcf : configOk k m = true := by
    simp only [configOk, Bool.and_eq_true, decide_eq_true_eq]
    exact ⟨by omega, hmk⟩
  rw [runMain, if_pos hcf, hread]
  show Except.ok (pipelineCount k m (ps.flatMap rsOf)) = _
  rw [pipelineCount_eq_distinct k m hm8 hmk hk32]

/-- Witness for `c9_cross_file_dedup` on the two-file fixture with
k = 8, m = 8: the shared 8-mer `CAAAAAAA` is counted once. -/
theorem c9_cross_file_dedup_witness :
    readAllRecords fs9 ("@L".toList) =
        Except.ok ((["f1".toList, "f2".toList] : List FsPath).flatMap rsOf9) ∧
      runMain 8 8 fs9 ("@L".toList) = Except.ok
        (((((["f1".toList, "f2".toList] : List FsPath).flatMap
            rsOf9).flatMap (processRecord 8 8)).flatMap
          (fun pr => kmersOfWord 8 pr.2)).dedup.length) :=
  c9_cross_file_dedup 8 8 (by decide) (by decide) (by decide) fs9
    ("@L".toList) ["f1".toList, "f2".toList] rsOf9 rfl rfl (by decide)

end DistinctKmers
